import Mathlib

/-!
Verification of the reference extraction engine of the terminator editor
plugin (editor_plugin.py).  The engine is embedded shallowly: strings are
lists of characters, the three regular expressions of the source are
embedded as syntax trees matched by a list-of-successes backtracking
matcher (leftmost start position, alternatives tried left to right,
greedy repetition), the process wide diff context is explicit state, and
the filesystem is a record of an existence predicate plus the walk order
of the library directory.
-/

namespace EditorPlugin

/-- Characters matched by the regex class for letters and digits. -/
def isAlnumCh (c : Char) : Bool :=
  ('a' ≤ c && c ≤ 'z') || ('A' ≤ c && c ≤ 'Z') || ('0' ≤ c && c ≤ '9')

/-- Characters matched by the regex digit class. -/
def isDigitCh (c : Char) : Bool := '0' ≤ c && c ≤ '9'

/-- The character class of the default pattern for path tokens. -/
def isPathChar (c : Char) : Bool :=
  isAlnumCh c || c == '_' || c == '/' || c == '.' || c == '-'

/-- The negated class of blanks and newline used by the lookbehind alternatives. -/
def notBlankNl (c : Char) : Bool := !(c == ' ' || c == '\t' || c == '\n')

/-- The negated class excluding the at sign, used by the hunk token alternative. -/
def notAtSign (c : Char) : Bool := !(c == '@')

/-- The literal cs occurs in s at position i. -/
def litAt (s : List Char) (i : Nat) (cs : List Char) : Bool :=
  decide ((s.drop i).take cs.length = cs)

/-- Zero width test for the caret-or-preceded-by-space group opening the default pattern. -/
def bolOrSpace (s : List Char) (i : Nat) : Bool :=
  decide (i = 0 ∨ s[i - 1]? = some ' ')

/-- Zero width negative lookahead excluding tokens beginning a/ or b/. -/
def noAB (s : List Char) (i : Nat) : Bool :=
  !(litAt s i ['a', '/'] || litAt s i ['b', '/'])

/-- Zero width lookbehind for a fixed literal. -/
def lbehind (cs : List Char) (s : List Char) (i : Nat) : Bool :=
  decide (cs.length ≤ i ∧ (s.take i).drop (i - cs.length) = cs)

/-- Zero width lookahead for end of input or a following space or tab. -/
def endOrBlank (s : List Char) (i : Nat) : Bool :=
  decide (i = s.length ∨ s[i]? = some ' ' ∨ s[i]? = some '\t')

/-- Syntax of the fragment of regular expressions used by the plugin:
literals, greedy one-or-more and zero-or-more over a character class,
greedy option, capturing group, sequence, alternation tried left to
right, and zero width predicates. -/
inductive RE where
  | lit : List Char → RE
  | plusCls : (Char → Bool) → RE
  | starCls : (Char → Bool) → RE
  | opt : RE → RE
  | grp : Nat → RE → RE
  | seq : RE → RE → RE
  | alt : RE → RE → RE
  | look : (List Char → Nat → Bool) → RE

/-- Recorded capture groups, most recent first. -/
abbrev Caps := List (Nat × List Char)

/-- Length of the maximal run of characters of class p starting at i. -/
def runLen (p : Char → Bool) (s : List Char) (i : Nat) : Nat :=
  ((s.drop i).takeWhile p).length

/-- The descending list hi, hi-1, ... of given length. -/
def downFromAux : Nat → Nat → List Nat
  | 0, _ => []
  | n + 1, hi => hi :: downFromAux n (hi - 1)

/-- The descending list hi, hi-1, ..., lo (empty when lo > hi). -/
def downFrom (hi lo : Nat) : List Nat := downFromAux (hi + 1 - lo) hi

/-- All ways the expression can match in s starting at position i, as
pairs of end position and captures, in the priority order of a
backtracking matcher: greedy repetition tries longer runs first,
alternation tries the left branch first, option tries to match first.
The first element is the match the engine reports. -/
def reAll (s : List Char) : RE → Nat → Caps → List (Nat × Caps)
  | RE.lit cs, i, g => if (s.drop i).take cs.length = cs then [(i + cs.length, g)] else []
  | RE.plusCls p, i, g => (downFrom (i + runLen p s i) (i + 1)).map (fun j => (j, g))
  | RE.starCls p, i, g => (downFrom (i + runLen p s i) i).map (fun j => (j, g))
  | RE.opt r, i, g => reAll s r i g ++ [(i, g)]
  | RE.grp n r, i, g => (reAll s r i g).map (fun jg => (jg.1, (n, (s.take jg.1).drop i) :: jg.2))
  | RE.seq a b, i, g => (reAll s a i g).flatMap (fun jg => reAll s b jg.1 jg.2)
  | RE.alt a b, i, g => reAll s a i g ++ reAll s b i g
  | RE.look f, i, g => if f s i then [(i, g)] else []

/-- The anchored match attempt at position i (python re.match uses i = 0):
end position and captures of the reported match, if any. -/
def reMatchAt (r : RE) (s : List Char) (i : Nat) : Option (Nat × Caps) :=
  (reAll s r i []).head?

/-- Unanchored search (python re.search): the match at the leftmost
position where one exists, as (start, end, captures). -/
def reSearch (r : RE) (s : List Char) : Option (Nat × Nat × Caps) :=
  (List.range (s.length + 1)).findSome? fun i =>
    (reMatchAt r s i).map fun jg => (i, jg.1, jg.2)

/-- Capturing group indices of an expression, in syntactic order. -/
def reGroupIdxs : RE → List Nat
  | RE.grp n r => n :: reGroupIdxs r
  | RE.seq a b => reGroupIdxs a ++ reGroupIdxs b
  | RE.alt a b => reGroupIdxs a ++ reGroupIdxs b
  | RE.opt r => reGroupIdxs r
  | _ => []

/-- The default pattern of the source, line 22:
(?:^|(?<= ))(?![ab]/)([a-zA-Z0-9_/.-]+[.][a-zA-Z0-9]+)(:[0-9]+)?(:[0-9]+)?(?=$|[ \t]) -/
def DEFAULT_RE : RE :=
  RE.seq (RE.look bolOrSpace)
    (RE.seq (RE.look noAB)
      (RE.seq (RE.grp 1 (RE.seq (RE.plusCls isPathChar)
          (RE.seq (RE.lit ['.']) (RE.plusCls isAlnumCh))))
        (RE.seq (RE.opt (RE.grp 2 (RE.seq (RE.lit [':']) (RE.plusCls isDigitCh))))
          (RE.seq (RE.opt (RE.grp 3 (RE.seq (RE.lit [':']) (RE.plusCls isDigitCh))))
            (RE.look endOrBlank)))))

/-- The hunk token alternative of the git diff pattern: @@ [^@]+ @@ -/
def HUNK_TOKEN_RE : RE :=
  RE.seq (RE.lit ("@@ ".toList))
    (RE.seq (RE.plusCls notAtSign) (RE.lit (" @@".toList)))

/-- The extended pattern of the source, line 24: three lookbehind
alternatives capturing only the filename, the hunk token alternative,
and the default pattern as fallback. -/
def GIT_RE : RE :=
  RE.alt (RE.seq (RE.look (lbehind ("--- a/".toList))) (RE.plusCls notBlankNl))
    (RE.alt (RE.seq (RE.look (lbehind ("+++ b/".toList))) (RE.plusCls notBlankNl))
      (RE.alt (RE.seq (RE.look (lbehind ("diff --git a/".toList))) (RE.plusCls notBlankNl))
        (RE.alt HUNK_TOKEN_RE DEFAULT_RE)))

/-- The hunk line number extraction pattern of lines 103 and 133:
@@ [-][0-9]+,?[0-9]* [+]([0-9]+) -/
def HUNK_NUM_RE : RE :=
  RE.seq (RE.lit ("@@ -".toList))
    (RE.seq (RE.plusCls isDigitCh)
      (RE.seq (RE.opt (RE.lit [',']))
        (RE.seq (RE.starCls isDigitCh)
          (RE.seq (RE.lit [' ', '+']) (RE.grp 1 (RE.plusCls isDigitCh))))))

/-- Group 1 of the leftmost search match of the extraction pattern, the
new-file start line of a hunk header (python re.search on lines 103, 133). -/
def hunkSearch (s : List Char) : Option (List Char) :=
  (reSearch HUNK_NUM_RE s).bind fun x => x.2.2.lookup 1

/-- The matched substring reported for a line by the extended pattern,
modelling the match the terminal finds inside one line of output. -/
def first_git_match (line : List Char) : Option (List Char) :=
  (reSearch GIT_RE line).map fun x => (line.take x.2.1).drop x.1

/-- The process wide diff context, line 18 of the source:
both fields optional strings, initially unset. -/
structure GitDiffContext where
  file : Option (List Char)
  line : Option (List Char)
deriving DecidableEq

/-- Python truthiness of an optional string: None and the empty string are falsy. -/
def truthyOpt : Option (List Char) → Bool
  | none => false
  | some l => !l.isEmpty

/-- update_git_diff_context, lines 89 to 106: a fragment that contains a
slash or dot and does not start with @@ replaces the cached file and
clears the cached line; otherwise a fragment matching the extraction
pattern replaces the cached line; otherwise no change. -/
def update_git_diff_context (ctx : GitDiffContext) (strmatch : List Char) : GitDiffContext :=
  if (strmatch.contains '/' || strmatch.contains '.')
      && !(("@@".toList).isPrefixOf strmatch) then
    { file := some strmatch, line := none }
  else
    match hunkSearch strmatch with
    | some n => { ctx with line := some n }
    | none => ctx

/-- The filesystem as the engine observes it: an existence predicate,
and the walk of the configured library directory as the list of
(directory path, filenames) pairs in traversal order. -/
structure FileSystem where
  pathExists : List Char → Bool
  walk : List (List Char × List (List Char))

/-- os.path.join for two components on posix: an absolute second
component wins, otherwise a separator is inserted unless already there. -/
def pjoin (a b : List Char) : List Char :=
  if (['/']).isPrefixOf b then b
  else if a.isEmpty || a.getLast? = some '/' then a ++ b
  else a ++ '/' :: b

/-- os.path.isabs on posix. -/
def pyIsAbs (s : List Char) : Bool := (['/']).isPrefixOf s

/-- The last path segment, python split on slash then last element. -/
def lastSegment (l : List Char) : List Char :=
  (l.reverse.takeWhile (fun c => !(c == '/'))).reverse

/-- search_filepath_in_libdir, lines 108 to 115: walk the library
directory and return the joined path of the first directory entry whose
filename list holds the last segment of the group value. -/
def search_filepath_in_libdir (fs : FileSystem) (group_value : List Char) :
    Option (List Char) :=
  let filename := lastSegment group_value
  fs.walk.findSome? fun e =>
    if e.2.contains filename then some (pjoin e.1 filename) else none

/-- The tiered resolution of a captured file group, lines 163 to 171:
an absolute existing path is kept, otherwise the join with the working
directory when that exists, otherwise the library directory search. -/
def resolve_file_group (fs : FileSystem) (cwd : List Char) (group_value : List Char) :
    Option (List Char) :=
  if pyIsAbs group_value && fs.pathExists group_value then some group_value
  else
    let fp := pjoin cwd group_value
    if fs.pathExists fp then some fp else search_filepath_in_libdir fs group_value

/-- The configuration slice get_filepath reads: the git diff flag, the
active pattern and the ordered group names. -/
structure PluginConfig where
  git_diff_support : Bool
  matchPat : RE
  groups : List (List Char)

/-- One iteration of the loop over zipped groups and names, lines 156 to
175: unset groups are skipped before this is called; a leading colon is
stripped; the file name triggers path resolution, the line and column
names overwrite when the stripped value is nonempty. -/
def applyGroup (fs : FileSystem) (cwd : List Char)
    (st : Option (List Char) × List Char × List Char)
    (gv : Option (List Char)) (gn : List Char) :
    Option (List Char) × List Char × List Char :=
  match gv with
  | none => st
  | some v0 =>
    let v := if ([':']).isPrefixOf v0 then v0.tail else v0
    if gn = "file".toList then (resolve_file_group fs cwd v, st.2.1, st.2.2)
    else if gn = "line".toList && !v.isEmpty then (st.1, v, st.2.2)
    else if gn = "column".toList && !v.isEmpty then (st.1, st.2.1, v)
    else st

/-- The plain pattern section of get_filepath, lines 148 to 176:
anchored match of the active pattern, defaults on failure, otherwise the
group loop over the captures paired with the configured names. -/
def plain_match_path (fs : FileSystem) (cwd : List Char) (cfg : PluginConfig)
    (strmatch : List Char) : Option (List Char) × List Char × List Char :=
  match reMatchAt cfg.matchPat strmatch 0 with
  | none => (none, ['1'], ['1'])
  | some jg =>
    let groups := (reGroupIdxs cfg.matchPat).map fun n => jg.2.lookup n
    (groups.zip cfg.groups).foldl (fun st p => applyGroup fs cwd st p.1 p.2)
      (none, ['1'], ['1'])

/-- The body of get_filepath after the context update, lines 130 to 176,
reading the already updated context: the hunk branch needs a successful
extraction and a truthy cached file; the file header branch fires on a
slash or dot; everything else falls to the plain pattern section. -/
def resolve_after_update (fs : FileSystem) (cfg : PluginConfig) (cwd : List Char)
    (ctx2 : GitDiffContext) (strmatch : List Char) :
    Option (List Char) × List Char × List Char :=
  if ("@@".toList).isPrefixOf strmatch then
    match hunkSearch strmatch with
    | some n =>
      if truthyOpt ctx2.file then (some (pjoin cwd (ctx2.file.getD [])), n, ['1'])
      else plain_match_path fs cwd cfg strmatch
    | none => plain_match_path fs cwd cfg strmatch
  else if strmatch.contains '/' || strmatch.contains '.' then
    (some (pjoin cwd strmatch),
      if truthyOpt ctx2.line then ctx2.line.getD [] else ['1'], ['1'])
  else plain_match_path fs cwd cfg strmatch

/-- get_filepath, lines 117 to 176, with the mutation of the global
context made explicit: when git diff support is on the context is
updated first and then consulted, otherwise only the plain pattern
section runs.  Returns the new context and the (filepath, line, column)
triple. -/
def get_filepath (fs : FileSystem) (cfg : PluginConfig) (cwd : List Char)
    (ctx : GitDiffContext) (strmatch : List Char) :
    GitDiffContext × (Option (List Char) × List Char × List Char) :=
  if cfg.git_diff_support then
    let ctx2 := update_git_diff_context ctx strmatch
    (ctx2, resolve_after_update fs cfg cwd ctx2 strmatch)
  else (ctx, plain_match_path fs cwd cfg strmatch)

/-- Resolve a list of fragments in order, threading the context. -/
def resolve_sequence (fs : FileSystem) (cfg : PluginConfig) (cwd : List Char)
    (ctx : GitDiffContext) :
    List (List Char) → GitDiffContext × List (Option (List Char) × List Char × List Char)
  | [] => (ctx, [])
  | f :: fsx =>
    let r := get_filepath fs cfg cwd ctx f
    let rest := resolve_sequence fs cfg cwd r.1 fsx
    (rest.1, r.2 :: rest.2)

/-- Values stored in the configuration dictionary: strings or booleans. -/
inductive PyVal where
  | str : String → PyVal
  | bool : Bool → PyVal
deriving DecidableEq

/-- to_bool, line 29: equality test against the string True. -/
def to_bool (val : PyVal) : Bool := val = PyVal.str "True"

/-- DEFAULT_COMMAND, line 20. -/
def DEFAULT_COMMAND : String := "gvim --remote-silent +{line} {filepath}"

/-- DEFAULT_REGEX, line 22, as the stored pattern string. -/
def DEFAULT_REGEX : String :=
  "(?:^|(?<= ))(?![ab]/)([a-zA-Z0-9_/.\\-]+\\.[a-zA-Z0-9]+)(:[0-9]+)?(:[0-9]+)?(?=$|[ \\t])"

/-- GIT_DIFF_REGEX, line 24, as the stored pattern string. -/
def GIT_DIFF_REGEX : String :=
  "(?<=--- a/)[^ \\t\\n]+|(?<=\\+\\+\\+ b/)[^ \\t\\n]+|(?<=diff --git a/)[^ \\t\\n]+|@@ [^@]+ @@|"
    ++ DEFAULT_REGEX

/-- DEFAULT_GROUPS, line 25. -/
def DEFAULT_GROUPS : String := "file line column"

/-- DEFAULT_OPEN_IN_CURRENT_TERM, line 26. -/
def DEFAULT_OPEN_IN_CURRENT_TERM : Bool := false

/-- DEFAULT_GIT_DIFF_SUPPORT, line 27. -/
def DEFAULT_GIT_DIFF_SUPPORT : Bool := true

/-- A saved configuration: keys present in the stored dictionary.  The
boolean flags are stored as arbitrary values since to_bool is applied. -/
structure SavedConfig where
  command : Option String
  matchVal : Option String
  groups : Option String
  open_in_current_term : Option PyVal
  git_diff_support : Option PyVal

/-- The configuration after check_config normalised it. -/
structure CheckedConfig where
  command : String
  matchVal : String
  groups : String
  open_in_current_term : Bool
  git_diff_support : Bool
deriving DecidableEq

/-- check_config, lines 47 to 66: defaults updated with the saved
entries, both flags passed through to_bool, and, when git diff support
ends up on, the match pattern unconditionally replaced with
GIT_DIFF_REGEX before the configuration is saved. -/
def check_config (saved : Option SavedConfig) : CheckedConfig :=
  let command := match saved with
    | some sc => sc.command.getD DEFAULT_COMMAND
    | none => DEFAULT_COMMAND
  let matchV := match saved with
    | some sc => sc.matchVal.getD DEFAULT_REGEX
    | none => DEFAULT_REGEX
  let groups := match saved with
    | some sc => sc.groups.getD DEFAULT_GROUPS
    | none => DEFAULT_GROUPS
  let oict := match saved with
    | some sc => sc.open_in_current_term.getD (PyVal.bool DEFAULT_OPEN_IN_CURRENT_TERM)
    | none => PyVal.bool DEFAULT_OPEN_IN_CURRENT_TERM
  let gds := match saved with
    | some sc => sc.git_diff_support.getD (PyVal.bool DEFAULT_GIT_DIFF_SUPPORT)
    | none => PyVal.bool DEFAULT_GIT_DIFF_SUPPORT
  { command := command
    matchVal := if to_bool gds then GIT_DIFF_REGEX else matchV
    groups := groups
    open_in_current_term := to_bool oict
    git_diff_support := to_bool gds }

/-- The configuration in force when git diff support is enabled: the
extended pattern and the default group names. -/
def GITCFG : PluginConfig :=
  { git_diff_support := true
    matchPat := GIT_RE
    groups := ["file".toList, "line".toList, "column".toList] }

/-- The configuration with git diff support disabled and the default
pattern and group names. -/
def DEFCFG : PluginConfig :=
  { git_diff_support := false
    matchPat := DEFAULT_RE
    groups := ["file".toList, "line".toList, "column".toList] }

/-- The empty diff context the process starts with. -/
def ctx0 : GitDiffContext := { file := none, line := none }

/-- A filesystem on which nothing exists and the library walk is empty. -/
def fsEmpty : FileSystem := { pathExists := fun _ => false, walk := [] }

/-- A filesystem whose library walk holds two directories, only the
second of which carries the file x.py; nothing exists for the
existence predicate. -/
def fsWalkDemo : FileSystem :=
  { pathExists := fun _ => false
    walk := [("/lib".toList, ["a.py".toList]), ("/lib/sub".toList, ["x.py".toList])] }

/-- A filesystem on which exactly /w/foo.txt exists. -/
def fsFooExists : FileSystem :=
  { pathExists := fun p => p == "/w/foo.txt".toList, walk := [] }

/-- A saved configuration with a custom match pattern and git diff
support stored as the string True. -/
def savedCustom : Option SavedConfig :=
  some { command := none
         matchVal := some "MYPATTERN"
         groups := none
         open_in_current_term := none
         git_diff_support := some (PyVal.str "True") }

/-! ## List and search helper lemmas -/

theorem head?_flatMap {α β : Type} (l : List α) (f : α → List β) :
    (l.flatMap f).head? = l.findSome? fun a => (f a).head? := by
  induction l with
  | nil => simp [List.findSome?]
  | cons a t ih =>
    cases h : f a with
    | nil => simpa [List.findSome?, h] using ih
    | cons b bs => simp [List.findSome?, h]

theorem findSome?_append_eq {α β : Type} (l1 l2 : List α) (g : α → Option β) :
    (l1 ++ l2).findSome? g =
      match l1.findSome? g with
      | some v => some v
      | none => l2.findSome? g := by
  induction l1 with
  | nil => simp [List.findSome?]
  | cons a t ih => cases ha : g a <;> simp [List.findSome?, ha, ih]

theorem findSome?_flatMap {α β γ : Type} (l : List α) (f : α → List β) (g : β → Option γ) :
    (l.flatMap f).findSome? g = l.findSome? fun a => (f a).findSome? g := by
  induction l with
  | nil => simp [List.findSome?]
  | cons a t ih =>
    rw [List.flatMap_cons, findSome?_append_eq]
    cases h : (f a).findSome? g <;> simp [List.findSome?, h, ih]

theorem findSome?_map' {α β γ : Type} (l : List α) (f : α → β) (g : β → Option γ) :
    (l.map f).findSome? g = l.findSome? fun a => g (f a) := by
  induction l with
  | nil => simp [List.findSome?]
  | cons a t ih =>
    cases h : g (f a) with
    | none => simp [List.findSome?, h, ih]
    | some v => simp [List.findSome?, h]

theorem findSome?_append_left_none {α β : Type} {l1 l2 : List α} {f : α → Option β}
    (h : ∀ a ∈ l1, f a = none) : (l1 ++ l2).findSome? f = l2.findSome? f := by
  induction l1 with
  | nil => simp
  | cons a t ih =>
    have ha : f a = none := h a (by simp)
    simp only [List.cons_append, List.findSome?, ha]
    exact ih fun x hx => h x (by simp [hx])

theorem findSome?_append_left_some {α β : Type} {l1 l2 : List α} {f : α → Option β} {v : β}
    (h : l1.findSome? f = some v) : (l1 ++ l2).findSome? f = some v := by
  induction l1 with
  | nil => simp [List.findSome?] at h
  | cons a t ih =>
    cases ha : f a with
    | none =>
      simp [List.findSome?, ha] at h ⊢
      exact ih h
    | some w =>
      simp [List.findSome?, ha] at h ⊢
      exact h

theorem findSome?_eq_none_of_all {α β : Type} {l : List α} {f : α → Option β}
    (h : ∀ a ∈ l, f a = none) : l.findSome? f = none := by
  induction l with
  | nil => simp [List.findSome?]
  | cons a t ih =>
    have ha : f a = none := h a (by simp)
    simp only [List.findSome?, ha]
    exact ih fun x hx => h x (by simp [hx])

theorem downFromAux_findSome?_first {β : Type} (f : Nat → Option β) :
    ∀ (n hi d : Nat) (v : β), d ≤ hi → hi - d < n →
      (∀ j, d < j → j ≤ hi → f j = none) → f d = some v →
      (downFromAux n hi).findSome? f = some v := by
  intro n
  induction n with
  | zero => intro hi d v _ hlt; omega
  | succ n ih =>
    intro hi d v hdhi hlt hnone hd
    by_cases heq : d = hi
    · subst heq
      simp [downFromAux, List.findSome?, hd]
    · have hdlt : d < hi := lt_of_le_of_ne hdhi heq
      have hhi : f hi = none := hnone hi hdlt le_rfl
      simp only [downFromAux, List.findSome?, hhi]
      exact ih (hi - 1) d v (by omega) (by omega)
        (fun j h1 h2 => hnone j h1 (by omega)) hd

theorem downFrom_findSome?_first {β : Type} {f : Nat → Option β} {hi lo : Nat}
    (d : Nat) {v : β} (hlod : lo ≤ d) (hdhi : d ≤ hi)
    (hnone : ∀ j, d < j → j ≤ hi → f j = none) (hd : f d = some v) :
    (downFrom hi lo).findSome? f = some v := by
  unfold downFrom
  exact downFromAux_findSome?_first f (hi + 1 - lo) hi d v hdhi (by omega) hnone hd

theorem take_one_drop {α : Type} (l : List α) (j : Nat) (c : α) :
    ((l.drop j).take 1 = [c]) ↔ l[j]? = some c := by
  induction l generalizing j with
  | nil => simp
  | cons a t ih =>
    cases j with
    | zero => simp
    | succ k => simpa using ih k

theorem takeWhile_append_cons_of_neg {p : Char → Bool} {xs ys : List Char} {y : Char}
    (hxs : ∀ c ∈ xs, p c = true) (hy : p y = false) :
    ((xs ++ y :: ys).takeWhile p) = xs := by
  induction xs with
  | nil => simp [List.takeWhile_cons, hy]
  | cons a t ih =>
    have ha : p a = true := hxs a (by simp)
    rw [List.cons_append, List.takeWhile_cons, ha]
    simp only [if_true]
    rw [ih fun c hc => hxs c (by simp [hc])]

theorem takeWhile_all {p : Char → Bool} {xs : List Char}
    (hxs : ∀ c ∈ xs, p c = true) : xs.takeWhile p = xs := by
  induction xs with
  | nil => simp
  | cons a t ih =>
    have ha : p a = true := hxs a (by simp)
    rw [List.takeWhile_cons, ha]
    simp only [if_true]
    rw [ih fun c hc => hxs c (by simp [hc])]

/-! ## Step lemmas for the matcher -/

theorem reAll_seq {s : List Char} {a b : RE} {i : Nat} {g : Caps} :
    reAll s (RE.seq a b) i g =
      (reAll s a i g).flatMap fun jg => reAll s b jg.1 jg.2 := rfl

theorem reAll_alt {s : List Char} {a b : RE} {i : Nat} {g : Caps} :
    reAll s (RE.alt a b) i g = reAll s a i g ++ reAll s b i g := rfl

theorem reAll_opt {s : List Char} {r : RE} {i : Nat} {g : Caps} :
    reAll s (RE.opt r) i g = reAll s r i g ++ [(i, g)] := rfl

theorem reAll_grp {s : List Char} {n : Nat} {r : RE} {i : Nat} {g : Caps} :
    reAll s (RE.grp n r) i g =
      (reAll s r i g).map fun jg => (jg.1, (n, (s.take jg.1).drop i) :: jg.2) := rfl

theorem reAll_look_pos {s : List Char} {f : List Char → Nat → Bool} {i : Nat} {g : Caps}
    (h : f s i = true) : reAll s (RE.look f) i g = [(i, g)] := by
  simp [reAll, h]

theorem reAll_look_neg {s : List Char} {f : List Char → Nat → Bool} {i : Nat} {g : Caps}
    (h : f s i = false) : reAll s (RE.look f) i g = [] := by
  simp [reAll, h]

theorem reAll_lit_pos {s cs : List Char} {i : Nat} {g : Caps}
    (h : (s.drop i).take cs.length = cs) :
    reAll s (RE.lit cs) i g = [(i + cs.length, g)] := by
  simp [reAll, h]

theorem reAll_lit_neg {s cs : List Char} {i : Nat} {g : Caps}
    (h : ¬((s.drop i).take cs.length = cs)) :
    reAll s (RE.lit cs) i g = [] := by
  simp [reAll, h]

theorem reAll_plus {s : List Char} {p : Char → Bool} {i : Nat} {g : Caps} :
    reAll s (RE.plusCls p) i g =
      (downFrom (i + runLen p s i) (i + 1)).map fun j => (j, g) := rfl

theorem reAll_star {s : List Char} {p : Char → Bool} {i : Nat} {g : Caps} :
    reAll s (RE.starCls p) i g =
      (downFrom (i + runLen p s i) i).map fun j => (j, g) := rfl

theorem reAll_plus_zero {s : List Char} {p : Char → Bool} {i : Nat} {g : Caps}
    (h : runLen p s i = 0) : reAll s (RE.plusCls p) i g = [] := by
  rw [reAll_plus, h]
  simp only [Nat.add_zero, downFrom, Nat.sub_self]
  rfl

theorem flatMap_singleton {α β : Type} (f : α → List β) (a : α) :
    ([a]).flatMap f = f a := by simp

theorem lbehind_len_pos {cs s : List Char} {i : Nat} (h : i < cs.length) :
    lbehind cs s i = false := by
  simp only [lbehind, decide_eq_false_iff_not]
  rintro ⟨h1, _⟩
  omega

/-! ## Tracker lemmas -/

theorem update_preserves_file_on_hunk {ctx : GitDiffContext} {s : List Char}
    (hpre : ("@@".toList).isPrefixOf s = true) :
    (update_git_diff_context ctx s).file = ctx.file := by
  simp only [update_git_diff_context, hpre, Bool.not_true, Bool.and_false,
    Bool.false_eq_true, if_false]
  cases hunkSearch s <;> simp

theorem update_idem (ctx : GitDiffContext) (s : List Char) :
    update_git_diff_context (update_git_diff_context ctx s) s =
      update_git_diff_context ctx s := by
  cases hc : ((s.contains '/' || s.contains '.')
      && !(("@@".toList).isPrefixOf s)) with
  | true => simp only [update_git_diff_context, hc]; simp
  | false =>
    cases hs : hunkSearch s with
    | none => simp only [update_git_diff_context, hc, hs]; simp
    | some n => simp only [update_git_diff_context, hc, hs]; simp

/-- Claim C5: the tracker updates have exactly these effects: a fragment
with a slash or dot not starting with @@ sets the file and clears the
line; a fragment starting with @@ whose text matches the extraction
pattern sets the line to the captured number and leaves the file
untouched; a fragment that is not file shaped and fails the extraction
pattern leaves the whole context unchanged. -/
theorem diff_context_update_effects (ctx : GitDiffContext) (s : List Char) :
    ((s.contains '/' || s.contains '.') = true →
      ("@@".toList).isPrefixOf s = false →
      update_git_diff_context ctx s = { file := some s, line := none })
    ∧ (∀ n, ("@@".toList).isPrefixOf s = true → hunkSearch s = some n →
      update_git_diff_context ctx s = { file := ctx.file, line := some n })
    ∧ (((s.contains '/' || s.contains '.') = false ∨
          ("@@".toList).isPrefixOf s = true) →
      hunkSearch s = none → update_git_diff_context ctx s = ctx) := by
  refine ⟨fun hshape hpre => ?_, fun n hpre hn => ?_, fun hshape hn => ?_⟩
  · simp only [update_git_diff_context, hshape, hpre]; simp
  · simp only [update_git_diff_context, hpre, hn]; simp
  · rcases hshape with h | h <;>
      simp only [update_git_diff_context, h, hn] <;> simp

/-- Witness for C5 at three concrete fragments. -/
theorem diff_context_update_effects_witness :
    update_git_diff_context ctx0 ("foo.txt".toList) =
      { file := some ("foo.txt".toList), line := none }
    ∧ update_git_diff_context ctx0 ("@@ -1,3 +5,3 @@".toList) =
      { file := none, line := some ("5".toList) }
    ∧ update_git_diff_context ctx0 ("hello".toList) = ctx0 :=
  ⟨(diff_context_update_effects ctx0 _).1 (by decide) (by decide),
   (diff_context_update_effects ctx0 _).2.1 ("5".toList) (by decide) (by decide),
   (diff_context_update_effects ctx0 _).2.2 (Or.inl (by decide)) (by decide)⟩

/-- Claim C6: resolving the same fragment twice in immediate succession
yields the same (filepath, line, column) both times, for every fragment,
tracker state, configuration, filesystem and working directory. -/
theorem resolve_idempotent (fs : FileSystem) (cfg : PluginConfig) (cwd : List Char)
    (ctx : GitDiffContext) (s : List Char) :
    (get_filepath fs cfg cwd (get_filepath fs cfg cwd ctx s).1 s).2 =
      (get_filepath fs cfg cwd ctx s).2 := by
  cases h : cfg.git_diff_support with
  | true => simp only [get_filepath, h]; simp [update_idem]
  | false => simp only [get_filepath, h]; simp

/-- Claim C10: whenever the normalised git diff flag is on, check_config
stores the built in extended pattern as the match pattern, whatever the
saved pattern was. -/
theorem git_support_overrides_match_pattern (saved : Option SavedConfig)
    (h : (check_config saved).git_diff_support = true) :
    (check_config saved).matchVal = GIT_DIFF_REGEX := by
  simp only [check_config] at h ⊢
  rw [h]
  simp

/-- Witness for C10: a saved configuration with a custom pattern and the
flag stored as the string True ends up with the extended pattern. -/
theorem git_support_overrides_match_pattern_witness :
    (check_config savedCustom).git_diff_support = true ∧
    (check_config savedCustom).matchVal = GIT_DIFF_REGEX :=
  ⟨by decide, git_support_overrides_match_pattern savedCustom (by decide)⟩

/-- Claim C4: the tiered resolution of a captured file group: an
absolute existing raw path is returned unchanged; otherwise the join
with the working directory when that exists; otherwise the walk of the
library directory is scanned and the first directory whose filename list
holds the last segment of the raw value yields the joined path, with
unset filepath when no directory does. -/
theorem path_resolution_tiering (fs : FileSystem) (cwd gv : List Char) :
    (pyIsAbs gv = true → fs.pathExists gv = true →
      resolve_file_group fs cwd gv = some gv)
    ∧ ((pyIsAbs gv && fs.pathExists gv) = false →
      fs.pathExists (pjoin cwd gv) = true →
      resolve_file_group fs cwd gv = some (pjoin cwd gv))
    ∧ ((pyIsAbs gv && fs.pathExists gv) = false →
      fs.pathExists (pjoin cwd gv) = false →
      (((∀ e ∈ fs.walk, e.2.contains (lastSegment gv) = false) →
        resolve_file_group fs cwd gv = none)
      ∧ ∀ pre d ns post, fs.walk = pre ++ (d, ns) :: post →
          ns.contains (lastSegment gv) = true →
          (∀ e ∈ pre, e.2.contains (lastSegment gv) = false) →
          resolve_file_group fs cwd gv = some (pjoin d (lastSegment gv)))) := by
  have hsearch : search_filepath_in_libdir fs gv =
      fs.walk.findSome? (fun e =>
        if e.2.contains (lastSegment gv) then some (pjoin e.1 (lastSegment gv))
        else none) := rfl
  refine ⟨fun habs hex => ?_, fun habs hjoin => ?_, fun habs hjoin => ?_⟩
  · simp [resolve_file_group, habs, hex]
  · simp [resolve_file_group, habs, hjoin]
  · have hred : resolve_file_group fs cwd gv = search_filepath_in_libdir fs gv := by
      simp [resolve_file_group, habs, hjoin]
    refine ⟨fun hall => ?_, fun pre d ns post hwalk hmem hpre => ?_⟩
    · rw [hred, hsearch]
      refine findSome?_eq_none_of_all fun e he => ?_
      have h2 := hall e he
      simp at h2 ⊢
      exact h2
    · have hm2 := hmem
      simp at hm2
      rw [hred, hsearch, hwalk, findSome?_append_left_none (fun e he => ?_)]
      · simp [List.findSome?, hm2]
      · have h2 := hpre e he
        simp at h2 ⊢
        exact h2

/-- Witness for C4: the library search skips the first walked directory
and returns the join of the second, which holds the searched filename. -/
theorem path_resolution_tiering_witness :
    resolve_file_group fsWalkDemo ("/w".toList) ("sub/x.py".toList) =
      some ("/lib/sub/x.py".toList) := by
  have h := (path_resolution_tiering fsWalkDemo ("/w".toList) ("sub/x.py".toList)).2.2
    (by decide) (by decide)
  exact (h.2 [("/lib".toList, ["a.py".toList])] ("/lib/sub".toList) ["x.py".toList] []
    (by decide) (by decide) (by decide)).trans (by decide)

/-- Claim C8: with git diff support on, a fragment with a slash or dot
that does not start with @@ takes the file header branch: the filepath
is the working directory joined with the whole fragment and the column
keeps its default, so the plain pattern captures are never applied. -/
theorem file_header_branch_joins_fragment (fs : FileSystem) (cwd : List Char)
    (ctx : GitDiffContext) (s : List Char)
    (hshape : (s.contains '/' || s.contains '.') = true)
    (hpre : ("@@".toList).isPrefixOf s = false) :
    (get_filepath fs GITCFG cwd ctx s).2.1 = some (pjoin cwd s) ∧
    (get_filepath fs GITCFG cwd ctx s).2.2.2 = ['1'] := by
  have hupd : update_git_diff_context ctx s = { file := some s, line := none } := by
    simp only [update_git_diff_context, hshape, hpre]; simp
  simp only [get_filepath, GITCFG, resolve_after_update, hupd, hpre, hshape]
  simp [truthyOpt]

/-- Witness for C8 at the plain shaped fragment name.ext:12:3. -/
theorem file_header_branch_joins_fragment_witness :
    (get_filepath fsEmpty GITCFG ("/w".toList) ctx0 ("name.ext:12:3".toList)).2.1 =
      some (pjoin ("/w".toList) ("name.ext:12:3".toList)) ∧
    (get_filepath fsEmpty GITCFG ("/w".toList) ctx0 ("name.ext:12:3".toList)).2.2.2 =
      ['1'] :=
  file_header_branch_joins_fragment fsEmpty ("/w".toList) ctx0 ("name.ext:12:3".toList)
    (by decide) (by decide)

/-- Claim C9: in the file header branch the returned line is always the
default, because the context update on the same fragment has just
cleared the cached hunk line. -/
theorem file_header_branch_line_default (fs : FileSystem) (cwd : List Char)
    (ctx : GitDiffContext) (s : List Char)
    (hshape : (s.contains '/' || s.contains '.') = true)
    (hpre : ("@@".toList).isPrefixOf s = false) :
    (get_filepath fs GITCFG cwd ctx s).2.2.1 = ['1'] := by
  have hupd : update_git_diff_context ctx s = { file := some s, line := none } := by
    simp only [update_git_diff_context, hshape, hpre]; simp
  simp only [get_filepath, GITCFG, resolve_after_update, hupd, hpre, hshape]
  simp [truthyOpt]

/-- Witness for C9: even with a stale cached line in the tracker, the
file header branch reports line 1. -/
theorem file_header_branch_line_default_witness :
    (get_filepath fsEmpty GITCFG ("/w".toList)
      { file := none, line := some ("7".toList) } ("app/composer.json".toList)).2.2.1 =
      ['1'] :=
  file_header_branch_line_default fsEmpty ("/w".toList)
    { file := none, line := some ("7".toList) } ("app/composer.json".toList)
    (by decide) (by decide)

/-- A join of a relative path always appends the path after some prefix. -/
theorem pjoin_ends_with {a b : List Char} :
    ∃ pre, pjoin a b = pre ++ b := by
  unfold pjoin
  split
  · exact ⟨[], rfl⟩
  · split
    · exact ⟨a, rfl⟩
    · exact ⟨a ++ ['/'], by simp⟩

/-- Claim C1: from the three diff lines the extended pattern extracts
the fragments foo.txt, foo.txt and the whole hunk token; resolving the
three fragments in order from the empty context yields, for the third,
the working directory joined with foo.txt and the line 5; the join ends
in foo.txt. -/
theorem git_diff_hunk_sequence (fs : FileSystem) (cwd : List Char) :
    first_git_match ("--- a/foo.txt".toList) = some ("foo.txt".toList) ∧
    first_git_match ("+++ b/foo.txt".toList) = some ("foo.txt".toList) ∧
    first_git_match ("@@ -1,3 +5,3 @@".toList) = some ("@@ -1,3 +5,3 @@".toList) ∧
    (resolve_sequence fs GITCFG cwd ctx0
        ["foo.txt".toList, "foo.txt".toList, "@@ -1,3 +5,3 @@".toList]).2 =
      [(some (pjoin cwd ("foo.txt".toList)), "1".toList, "1".toList),
       (some (pjoin cwd ("foo.txt".toList)), "1".toList, "1".toList),
       (some (pjoin cwd ("foo.txt".toList)), "5".toList, "1".toList)] ∧
    (∃ pre, pjoin cwd ("foo.txt".toList) = pre ++ "foo.txt".toList) := by
  refine ⟨by decide, by decide, by decide, ?_, pjoin_ends_with⟩
  rfl

/-! ## The plain pattern on fragments starting with the at sign -/

theorem lbehind_at_zero {c : Char} {cs s : List Char} :
    lbehind (c :: cs) s 0 = false := by
  simp [lbehind]

theorem exists_of_atat_start {s : List Char}
    (h : ("@@".toList).isPrefixOf s = true) : ∃ t, s = '@' :: '@' :: t := by
  have h2 : (['@', '@']).isPrefixOf s = true := h
  cases s with
  | nil => simp [List.isPrefixOf] at h2
  | cons a s1 =>
    cases s1 with
    | nil => simp [List.isPrefixOf] at h2
    | cons b t =>
      simp [List.isPrefixOf] at h2
      obtain ⟨h3, h4⟩ := h2
      subst h3; subst h4
      exact ⟨t, rfl⟩

theorem head?_mem {α : Type} {l : List α} {x : α} (h : l.head? = some x) : x ∈ l := by
  cases l with
  | nil => simp at h
  | cons a t => simp at h; simp [h]

theorem reAll_caps_eq {r : RE} (hr : reGroupIdxs r = []) :
    ∀ (s : List Char) (i : Nat) (g : Caps) (x : Nat × Caps),
      x ∈ reAll s r i g → x.2 = g := by
  induction r with
  | lit cs =>
    intro s i g x hx
    simp only [reAll] at hx
    split at hx <;> simp at hx
    simp [hx]
  | plusCls p =>
    intro s i g x hx
    simp only [reAll] at hx
    simp at hx
    obtain ⟨j, _, hj⟩ := hx
    simp [← hj]
  | starCls p =>
    intro s i g x hx
    simp only [reAll] at hx
    simp at hx
    obtain ⟨j, _, hj⟩ := hx
    simp [← hj]
  | opt r ih =>
    intro s i g x hx
    simp only [reAll] at hx
    rw [List.mem_append] at hx
    rcases hx with hx | hx
    · exact ih (by simpa [reGroupIdxs] using hr) s i g x hx
    · simp at hx; simp [hx]
  | grp n r ih => simp [reGroupIdxs] at hr
  | seq a b iha ihb =>
    intro s i g x hx
    simp only [reGroupIdxs, List.append_eq_nil] at hr
    simp only [reAll, List.mem_flatMap] at hx
    obtain ⟨y, hy, hx⟩ := hx
    have h1 : y.2 = g := iha hr.1 s i g y hy
    have h2 : x.2 = y.2 := ihb hr.2 s y.1 y.2 x hx
    rw [h2, h1]
  | alt a b iha ihb =>
    intro s i g x hx
    simp only [reGroupIdxs, List.append_eq_nil] at hr
    simp only [reAll, List.mem_append] at hx
    rcases hx with hx | hx
    · exact iha hr.1 s i g x hx
    · exact ihb hr.2 s i g x hx
  | look f =>
    intro s i g x hx
    simp only [reAll] at hx
    split at hx <;> simp at hx
    simp [hx]

theorem reAll_default_empty {s : List Char} (h0 : runLen isPathChar s 0 = 0) :
    reAll s DEFAULT_RE 0 [] = [] := by
  rw [show DEFAULT_RE = RE.seq (RE.look bolOrSpace)
    (RE.seq (RE.look noAB)
      (RE.seq (RE.grp 1 (RE.seq (RE.plusCls isPathChar)
          (RE.seq (RE.lit ['.']) (RE.plusCls isAlnumCh))))
        (RE.seq (RE.opt (RE.grp 2 (RE.seq (RE.lit [':']) (RE.plusCls isDigitCh))))
          (RE.seq (RE.opt (RE.grp 3 (RE.seq (RE.lit [':']) (RE.plusCls isDigitCh))))
            (RE.look endOrBlank))))) from rfl, reAll_seq]
  cases hb : bolOrSpace s 0 with
  | false => rw [reAll_look_neg hb]; rfl
  | true =>
    rw [reAll_look_pos hb, flatMap_singleton, reAll_seq]
    cases hn : noAB s 0 with
    | false => rw [reAll_look_neg hn]; rfl
    | true =>
      rw [reAll_look_pos hn, flatMap_singleton, reAll_seq, reAll_grp, reAll_seq,
        reAll_plus_zero h0]
      rfl

theorem plain_git_at_atat (fs : FileSystem) (cwd : List Char) {s t : List Char}
    (hs : s = '@' :: '@' :: t) :
    plain_match_path fs cwd GITCFG s = (none, ['1'], ['1']) := by
  have hpc : isPathChar '@' = false := by decide
  have h0 : runLen isPathChar s 0 = 0 := by
    subst hs
    simp [runLen, List.takeWhile_cons, hpc]
  have h5 : reAll s DEFAULT_RE 0 [] = [] := reAll_default_empty h0
  have hgit : reAll s GIT_RE 0 [] = reAll s HUNK_TOKEN_RE 0 [] := by
    rw [show GIT_RE = RE.alt (RE.seq (RE.look (lbehind ("--- a/".toList))) (RE.plusCls notBlankNl))
      (RE.alt (RE.seq (RE.look (lbehind ("+++ b/".toList))) (RE.plusCls notBlankNl))
        (RE.alt (RE.seq (RE.look (lbehind ("diff --git a/".toList))) (RE.plusCls notBlankNl))
          (RE.alt HUNK_TOKEN_RE DEFAULT_RE))) from rfl,
      reAll_alt, reAll_alt, reAll_alt, reAll_alt,
      reAll_seq, reAll_look_neg (lbehind_len_pos (by decide)),
      reAll_seq, reAll_look_neg (lbehind_len_pos (by decide)),
      reAll_seq, reAll_look_neg (lbehind_len_pos (by decide)), h5]
    simp
  have hmatch : reMatchAt GIT_RE s 0 = (reAll s HUNK_TOKEN_RE 0 []).head? := by
    rw [show reMatchAt GIT_RE s 0 = (reAll s GIT_RE 0 []).head? from rfl, hgit]
  cases hh : (reAll s HUNK_TOKEN_RE 0 []).head? with
  | none =>
    have hm2 : reMatchAt GIT_RE s 0 = none := hmatch.trans hh
    simp [plain_match_path, GITCFG, hm2]
  | some jg =>
    have hjg : jg.2 = [] :=
      reAll_caps_eq (by rfl) s 0 [] jg (head?_mem hh)
    have hm2 : reMatchAt GIT_RE s 0 = some jg := hmatch.trans hh
    have hidx : reGroupIdxs GIT_RE = [1, 2, 3] := rfl
    simp [plain_match_path, GITCFG, hm2, hidx, hjg, applyGroup, List.lookup]

/-- Claim C2: with git diff support on, a well formed hunk header
fragment resolved while the tracker has no truthy cached file falls
through to the plain pattern section, which leaves the filepath unset
and line and column at their defaults. -/
theorem hunk_header_no_file_empty (fs : FileSystem) (cwd : List Char)
    (ctx : GitDiffContext) (s : List Char)
    (hpre : ("@@".toList).isPrefixOf s = true)
    (hwf : ∃ n, hunkSearch s = some n)
    (hfile : truthyOpt ctx.file = false) :
    (get_filepath fs GITCFG cwd ctx s).2 = (none, ['1'], ['1']) := by
  obtain ⟨n, hn⟩ := hwf
  obtain ⟨t, hs⟩ := exists_of_atat_start hpre
  have hfile2 : truthyOpt (update_git_diff_context ctx s).file = false := by
    rw [update_preserves_file_on_hunk hpre]; exact hfile
  simp only [get_filepath, GITCFG, resolve_after_update, hpre, hn, hfile2]
  simp only [if_true, Bool.false_eq_true, if_false]
  exact plain_git_at_atat fs cwd hs

/-- Witness for C2 at the hunk header of the C1 sequence. -/
theorem hunk_header_no_file_empty_witness :
    (get_filepath fsEmpty GITCFG ("/w".toList) ctx0 ("@@ -1,3 +5,3 @@".toList)).2 =
      (none, ['1'], ['1']) :=
  hunk_header_no_file_empty fsEmpty ("/w".toList) ctx0 ("@@ -1,3 +5,3 @@".toList)
    (by decide) ⟨"5".toList, by decide⟩ (by decide)

/-- Counterexample for C7: the fragment x/y satisfies the extended
pattern neither anchored nor searched, yet with git diff support on the
resolver returns a set filepath for it, not an empty reference. -/
theorem nomatch_nonempty_reference_counterexample :
    reMatchAt GIT_RE ("x/y".toList) 0 = none ∧
    reSearch GIT_RE ("x/y".toList) = none ∧
    (get_filepath fsEmpty GITCFG ("/w".toList) ctx0 ("x/y".toList)).2.1 =
      some ("/w/x/y".toList) := by
  refine ⟨by decide, by decide, by decide⟩

/-- Claim C7, amended: a fragment that does not satisfy the active
pattern yields the empty reference whenever the plain pattern section is
reached: always when git diff support is off; when it is on, whenever
the fragment does not start with @@ and contains neither a slash nor a
dot. -/
theorem nomatch_empty_reference :
    (∀ (fs : FileSystem) (cfg : PluginConfig) (cwd : List Char)
        (ctx : GitDiffContext) (s : List Char),
      cfg.git_diff_support = false →
      reMatchAt cfg.matchPat s 0 = none →
      (get_filepath fs cfg cwd ctx s).2 = (none, ['1'], ['1']))
    ∧ (∀ (fs : FileSystem) (cwd : List Char) (ctx : GitDiffContext) (s : List Char),
      ("@@".toList).isPrefixOf s = false →
      (s.contains '/' || s.contains '.') = false →
      reMatchAt GIT_RE s 0 = none →
      (get_filepath fs GITCFG cwd ctx s).2 = (none, ['1'], ['1'])) := by
  constructor
  · intro fs cfg cwd ctx s hgds hm
    simp only [get_filepath, hgds]
    simp [plain_match_path, hm]
  · intro fs cwd ctx s hpre hshape hm
    simp only [get_filepath, GITCFG, resolve_after_update, hpre, hshape]
    simp only [Bool.false_eq_true, if_false, if_true]
    simp [plain_match_path, GITCFG, hm]

/-- Witness for C7 at the fragment hello, in both modes. -/
theorem nomatch_empty_reference_witness :
    (get_filepath fsEmpty DEFCFG ("/w".toList) ctx0 ("hello".toList)).2 =
      (none, ['1'], ['1']) ∧
    (get_filepath fsEmpty GITCFG ("/w".toList) ctx0 ("hello".toList)).2 =
      (none, ['1'], ['1']) :=
  ⟨nomatch_empty_reference.1 fsEmpty DEFCFG ("/w".toList) ctx0 ("hello".toList)
      rfl (by decide),
   nomatch_empty_reference.2 fsEmpty ("/w".toList) ctx0 ("hello".toList)
      (by decide) (by decide) (by decide)⟩

/-! ## The default pattern on structured plain fragments -/

theorem downFrom_findSome?_head {β : Type} {f : Nat → Option β} {hi lo : Nat} {v : β}
    (hlo : lo ≤ hi) (hd : f hi = some v) :
    (downFrom hi lo).findSome? f = some v :=
  downFrom_findSome?_first hi hlo le_rfl (fun j h1 h2 => absurd h2 (by omega)) hd

theorem drop_left_len {α : Type} {P T : List α} {n : Nat} (h : P.length = n) :
    (P ++ T).drop n = T := by
  subst h
  exact List.drop_left P T

theorem take_left_len {α : Type} {P T : List α} {n : Nat} (h : P.length = n) :
    (P ++ T).take n = P := by
  subst h
  exact List.take_left P T

theorem stage_opt3 {s M : List Char} {pN : Nat} (hM : M ≠ [])
    (hdrop : s.drop pN = ':' :: M)
    (hrun : runLen isDigitCh s (pN + 1) = M.length)
    (hslice : (s.take (pN + 1 + M.length)).drop pN = ':' :: M)
    (hend : endOrBlank s (pN + 1 + M.length) = true) (g : Caps) :
    (reAll s (RE.seq (RE.opt (RE.grp 3 (RE.seq (RE.lit [':']) (RE.plusCls isDigitCh))))
      (RE.look endOrBlank)) pN g).head? =
      some (pN + 1 + M.length, (3, ':' :: M) :: g) := by
  have hMl : 0 < M.length := List.length_pos.mpr hM
  have hlit : (s.drop pN).take ([':'] : List Char).length = [':'] := by
    rw [hdrop]; rfl
  rw [reAll_seq, head?_flatMap, reAll_opt, reAll_grp, reAll_seq, reAll_lit_pos hlit]
  simp only [flatMap_singleton, List.length_singleton]
  rw [reAll_plus, hrun]
  apply findSome?_append_left_some
  rw [findSome?_map', findSome?_map']
  refine downFrom_findSome?_head (by omega) ?_
  show (reAll s (RE.look endOrBlank) (pN + 1 + M.length)
      ((3, (s.take (pN + 1 + M.length)).drop pN) :: g)).head? =
    some (pN + 1 + M.length, (3, ':' :: M) :: g)
  rw [hslice, reAll_look_pos hend]
  rfl

theorem stage_opt2 {s N M : List Char} {pE : Nat} (hN : N ≠ []) (hM : M ≠ [])
    (hdropE : s.drop pE = ':' :: (N ++ ':' :: M))
    (hrunN : runLen isDigitCh s (pE + 1) = N.length)
    (hsliceN : (s.take (pE + 1 + N.length)).drop pE = ':' :: N)
    (hdropN : s.drop (pE + 1 + N.length) = ':' :: M)
    (hrunM : runLen isDigitCh s (pE + 1 + N.length + 1) = M.length)
    (hsliceM : (s.take (pE + 1 + N.length + 1 + M.length)).drop (pE + 1 + N.length) =
      ':' :: M)
    (hend : endOrBlank s (pE + 1 + N.length + 1 + M.length) = true) (g : Caps) :
    (reAll s (RE.seq (RE.opt (RE.grp 2 (RE.seq (RE.lit [':']) (RE.plusCls isDigitCh))))
      (RE.seq (RE.opt (RE.grp 3 (RE.seq (RE.lit [':']) (RE.plusCls isDigitCh))))
        (RE.look endOrBlank))) pE g).head? =
      some (pE + 1 + N.length + 1 + M.length, (3, ':' :: M) :: (2, ':' :: N) :: g) := by
  have hNl : 0 < N.length := List.length_pos.mpr hN
  have hlit : (s.drop pE).take ([':'] : List Char).length = [':'] := by
    rw [hdropE]; rfl
  rw [reAll_seq, head?_flatMap, reAll_opt, reAll_grp, reAll_seq, reAll_lit_pos hlit]
  simp only [flatMap_singleton, List.length_singleton]
  rw [reAll_plus, hrunN]
  apply findSome?_append_left_some
  rw [findSome?_map', findSome?_map']
  refine downFrom_findSome?_head (by omega) ?_
  show (reAll s (RE.seq (RE.opt (RE.grp 3 (RE.seq (RE.lit [':']) (RE.plusCls isDigitCh))))
      (RE.look endOrBlank)) (pE + 1 + N.length)
      ((2, (s.take (pE + 1 + N.length)).drop pE) :: g)).head? =
    some (pE + 1 + N.length + 1 + M.length, (3, ':' :: M) :: (2, ':' :: N) :: g)
  rw [hsliceN]
  exact stage_opt3 hM hdropN hrunM hsliceM hend ((2, ':' :: N) :: g)

theorem isPathChar_of_alnum {c : Char} (h : isAlnumCh c = true) :
    isPathChar c = true := by
  simp [isPathChar, h]

theorem alnum_ne_dot {c : Char} (h : isAlnumCh c = true) : c ≠ '.' := by
  intro heq
  subst heq
  exact absurd h (by decide)

/-- The anchored match of the default pattern on a fragment of the exact
shape name.ext:N:M with name over path characters, ext over letters and
digits, N and M over digits, all nonempty, and the leading negative
lookahead satisfied: the match spans the whole fragment, group 1 is
name.ext, group 2 is :N and group 3 is :M. -/
theorem default_match_structured (name ext N M : List Char)
    (hn : name ≠ []) (hnc : ∀ c ∈ name, isPathChar c = true)
    (he : ext ≠ []) (hec : ∀ c ∈ ext, isAlnumCh c = true)
    (hN : N ≠ []) (hNc : ∀ c ∈ N, isDigitCh c = true)
    (hM : M ≠ []) (hMc : ∀ c ∈ M, isDigitCh c = true)
    (hab : noAB (name ++ '.' :: (ext ++ ':' :: (N ++ ':' :: M))) 0 = true) :
    reMatchAt DEFAULT_RE (name ++ '.' :: (ext ++ ':' :: (N ++ ':' :: M))) 0 =
      some (name.length + 1 + ext.length + 1 + N.length + 1 + M.length,
        [(3, ':' :: M), (2, ':' :: N), (1, name ++ '.' :: ext)]) := by
  set s := name ++ '.' :: (ext ++ ':' :: (N ++ ':' :: M)) with hs
  have hnl : 0 < name.length := List.length_pos.mpr hn
  have hel : 0 < ext.length := List.length_pos.mpr he
  have hXc : ∀ c ∈ name ++ '.' :: ext, isPathChar c = true := by
    intro c hc
    rcases List.mem_append.mp hc with h | h
    · exact hnc c h
    · rcases List.mem_cons.mp h with h | h
      · subst h; decide
      · exact isPathChar_of_alnum (hec c h)
  have hsplit1 : s = (name ++ '.' :: ext) ++ ':' :: (N ++ ':' :: M) := by
    rw [hs]; simp
  have hXlen : (name ++ '.' :: ext).length = name.length + 1 + ext.length := by
    simp only [List.length_append, List.length_cons]; omega
  have hsplit3b : s = ((name ++ '.' :: ext) ++ ':' :: N) ++ ':' :: M := by
    rw [hs]; simp
  have hrun0 : runLen isPathChar s 0 = name.length + 1 + ext.length := by
    show ((s.drop 0).takeWhile isPathChar).length = _
    rw [List.drop_zero, hsplit1,
      takeWhile_append_cons_of_neg hXc (by decide)]
    exact hXlen
  have hdropname : s.drop name.length = '.' :: (ext ++ ':' :: (N ++ ':' :: M)) := by
    rw [hs]; exact List.drop_left name _
  have hlitdot : (s.drop name.length).take (['.'] : List Char).length = ['.'] := by
    rw [hdropname]; rfl
  have hrunext : runLen isAlnumCh s (name.length + 1) = ext.length := by
    have hsplit2 : s = (name ++ ['.']) ++ (ext ++ ':' :: (N ++ ':' :: M)) := by
      rw [hs]; simp
    show ((s.drop (name.length + 1)).takeWhile isAlnumCh).length = _
    rw [hsplit2, drop_left_len (by simp),
      takeWhile_append_cons_of_neg hec (by decide)]
  have htakeX : s.take (name.length + 1 + ext.length) = name ++ '.' :: ext := by
    rw [hsplit1]; exact take_left_len hXlen
  have hdropE : s.drop (name.length + 1 + ext.length) = ':' :: (N ++ ':' :: M) := by
    rw [hsplit1]; exact drop_left_len hXlen
  have hrunN : runLen isDigitCh s (name.length + 1 + ext.length + 1) = N.length := by
    have hsplit3 : s = ((name ++ '.' :: ext) ++ [':']) ++ (N ++ ':' :: M) := by
      rw [hs]; simp
    show ((s.drop (name.length + 1 + ext.length + 1)).takeWhile isDigitCh).length = _
    rw [hsplit3, drop_left_len (by
        simp only [List.length_append, List.length_cons, List.length_nil, hXlen]),
      takeWhile_append_cons_of_neg hNc (by decide)]
  have hsliceN : (s.take (name.length + 1 + ext.length + 1 + N.length)).drop
      (name.length + 1 + ext.length) = ':' :: N := by
    rw [hsplit3b, take_left_len (by
      simp only [List.length_append, List.length_cons, hXlen]; omega)]
    exact drop_left_len hXlen
  have hdropN : s.drop (name.length + 1 + ext.length + 1 + N.length) = ':' :: M := by
    rw [hsplit3b]
    exact drop_left_len (by
      simp only [List.length_append, List.length_cons, hXlen]; omega)
  have hrunM : runLen isDigitCh s
      (name.length + 1 + ext.length + 1 + N.length + 1) = M.length := by
    have hsplit4 : s = (((name ++ '.' :: ext) ++ ':' :: N) ++ [':']) ++ M := by
      rw [hs]; simp
    show ((s.drop (name.length + 1 + ext.length + 1 + N.length + 1)).takeWhile
      isDigitCh).length = _
    rw [hsplit4, drop_left_len (by
        simp only [List.length_append, List.length_cons, List.length_nil, hXlen]; omega),
      takeWhile_all hMc]
  have hslen : s.length =
      name.length + 1 + ext.length + 1 + N.length + 1 + M.length := by
    rw [hs]; simp only [List.length_append, List.length_cons]; omega
  have hsliceM : (s.take (name.length + 1 + ext.length + 1 + N.length + 1 +
      M.length)).drop (name.length + 1 + ext.length + 1 + N.length) = ':' :: M := by
    rw [← hslen, List.take_length]
    exact hdropN
  have hbol : bolOrSpace s 0 = true := by simp [bolOrSpace]
  have hend : endOrBlank s
      (name.length + 1 + ext.length + 1 + N.length + 1 + M.length) = true := by
    simp only [endOrBlank, decide_eq_true_eq]
    exact Or.inl hslen.symm
  have hfail : ∀ j, name.length < j → j ≤ name.length + 1 + ext.length →
      ¬((s.drop j).take (['.'] : List Char).length = ['.']) := by
    intro j h1 h2
    rw [show (['.'] : List Char).length = 1 from rfl, take_one_drop]
    intro hc
    by_cases hj : j = name.length + 1 + ext.length
    · subst hj
      have hcolon : s[name.length + 1 + ext.length]? = some ':' :=
        (take_one_drop s _ ':').mp (by rw [hdropE]; rfl)
      rw [hcolon] at hc
      exact absurd hc (by decide)
    · have hjlt : j < name.length + 1 + ext.length := lt_of_le_of_ne h2 hj
      have hjX : j < (name ++ '.' :: ext).length := by rw [hXlen]; omega
      rw [hsplit1, List.getElem?_append, if_pos hjX] at hc
      rw [List.getElem?_append, if_neg (by omega : ¬j < name.length)] at hc
      have hk : j - name.length = (j - name.length - 1) + 1 := by omega
      rw [hk, List.getElem?_cons_succ] at hc
      have hmem : '.' ∈ ext := List.getElem?_mem hc
      exact absurd rfl (alnum_ne_dot (hec '.' hmem))
  rw [show reMatchAt DEFAULT_RE s 0 = (reAll s DEFAULT_RE 0 []).head? from rfl]
  rw [show DEFAULT_RE = RE.seq (RE.look bolOrSpace)
    (RE.seq (RE.look noAB)
      (RE.seq (RE.grp 1 (RE.seq (RE.plusCls isPathChar)
          (RE.seq (RE.lit ['.']) (RE.plusCls isAlnumCh))))
        (RE.seq (RE.opt (RE.grp 2 (RE.seq (RE.lit [':']) (RE.plusCls isDigitCh))))
          (RE.seq (RE.opt (RE.grp 3 (RE.seq (RE.lit [':']) (RE.plusCls isDigitCh))))
            (RE.look endOrBlank))))) from rfl]
  rw [reAll_seq, reAll_look_pos hbol]
  simp only [flatMap_singleton]
  rw [reAll_seq, reAll_look_pos hab]
  simp only [flatMap_singleton]
  rw [reAll_seq, reAll_grp, reAll_seq, reAll_plus, hrun0]
  simp only [Nat.zero_add, head?_flatMap, findSome?_map', findSome?_flatMap]
  refine downFrom_findSome?_first name.length (by omega) (by omega) ?_ ?_
  · intro j h1 h2
    rw [reAll_seq, reAll_lit_neg (hfail j h1 h2)]
    simp [List.findSome?]
  · rw [reAll_seq, reAll_lit_pos hlitdot]
    simp only [flatMap_singleton, List.length_singleton]
    rw [reAll_plus, hrunext]
    simp only [findSome?_map']
    refine downFrom_findSome?_head (by omega) ?_
    show (reAll s (RE.seq (RE.opt (RE.grp 2 (RE.seq (RE.lit [':'])
        (RE.plusCls isDigitCh))))
      (RE.seq (RE.opt (RE.grp 3 (RE.seq (RE.lit [':']) (RE.plusCls isDigitCh))))
        (RE.look endOrBlank))) (name.length + 1 + ext.length)
      ((1, (s.take (name.length + 1 + ext.length)).drop 0) :: [])).head? =
      some (name.length + 1 + ext.length + 1 + N.length + 1 + M.length,
        [(3, ':' :: M), (2, ':' :: N), (1, name ++ '.' :: ext)])
    rw [List.drop_zero, htakeX]
    exact stage_opt2 hN hM hdropE hrunN hsliceN hdropN hrunM hsliceM hend
      [(1, name ++ '.' :: ext)]

theorem noAB_of_take {s : List Char} (ha : s.take 2 ≠ ['a', '/'])
    (hb : s.take 2 ≠ ['b', '/']) : noAB s 0 = true := by
  simp only [noAB, litAt, List.drop_zero]
  rw [show (['a', '/'] : List Char).length = 2 from rfl,
    show (['b', '/'] : List Char).length = 2 from rfl]
  simp [ha, hb]

theorem colon_isPrefixOf_eq_false {name rest : List Char}
    (hn : name ≠ []) (hnc : ∀ c ∈ name, isPathChar c = true) :
    ([':'] : List Char).isPrefixOf (name ++ rest) = false := by
  cases name with
  | nil => exact absurd rfl hn
  | cons c t =>
    have hc1 : isPathChar c = true := hnc c (by simp)
    have hcc : (':' == c) = false := by
      simp only [beq_eq_false_iff_ne, ne_eq]
      intro h
      rw [← h] at hc1
      exact absurd hc1 (by decide)
    simp [List.isPrefixOf, hcc]

theorem resolve_tier_ends {fs : FileSystem} {cwd gv : List Char}
    (h : (pyIsAbs gv && fs.pathExists gv) = true ∨
      fs.pathExists (pjoin cwd gv) = true) :
    ∃ p pre, resolve_file_group fs cwd gv = some p ∧ p = pre ++ gv := by
  by_cases habs : (pyIsAbs gv && fs.pathExists gv) = true
  · exact ⟨gv, [], by simp [resolve_file_group, habs], by simp⟩
  · have hj : fs.pathExists (pjoin cwd gv) = true := h.resolve_left habs
    obtain ⟨pre, hpre⟩ := (pjoin_ends_with : ∃ pre, pjoin cwd gv = pre ++ gv)
    exact ⟨pjoin cwd gv, pre, by simp [resolve_file_group, habs, hj], hpre⟩

theorem fold_groups_flc (fs : FileSystem) (cwd : List Char) (X N M : List Char)
    (hstrip : ([':'] : List Char).isPrefixOf X = false)
    (hNe : N.isEmpty = false) (hMe : M.isEmpty = false) :
    ([some X, some (':' :: N), some (':' :: M)].zip
      ["file".toList, "line".toList, "column".toList]).foldl
      (fun st p => applyGroup fs cwd st p.1 p.2) (none, ['1'], ['1']) =
    (resolve_file_group fs cwd X, N, M) := by
  have hN' : ¬(N = []) := by intro h; subst h; simp at hNe
  have hM' : ¬(M = []) := by intro h; subst h; simp at hMe
  have hX' : ¬(([':'] : List Char) <+: X) := by
    intro h
    have h2 := List.isPrefixOf_iff_prefix.mpr h
    rw [hstrip] at h2
    exact Bool.noConfusion h2
  simp [applyGroup, hstrip, hNe, hMe, List.isPrefixOf, hN', hM', hX']

/-- Counterexample for C3 as frozen: on a filesystem where nothing
exists, resolving foo.txt:12:3 with the default pattern yields the
expected line and column but an unset filepath, which therefore does not
end in foo.txt. -/
theorem plain_fragment_filepath_counterexample :
    (get_filepath fsEmpty DEFCFG ("/w".toList) ctx0 ("foo.txt:12:3".toList)).2.2.1 =
      "12".toList ∧
    (get_filepath fsEmpty DEFCFG ("/w".toList) ctx0 ("foo.txt:12:3".toList)).2.2.2 =
      "3".toList ∧
    ¬ ∃ p pre,
      (get_filepath fsEmpty DEFCFG ("/w".toList) ctx0 ("foo.txt:12:3".toList)).2.1 =
        some p ∧ p = pre ++ "foo.txt".toList := by
  refine ⟨by decide, by decide, ?_⟩
  rintro ⟨p, pre, hp, _⟩
  have h : (get_filepath fsEmpty DEFCFG ("/w".toList) ctx0
      ("foo.txt:12:3".toList)).2.1 = none := by decide
  rw [h] at hp
  exact Option.noConfusion hp

/-- Claim C3, amended: with git diff support off, resolving a plain
fragment of the shape name.ext:N:M matched by the default pattern yields
line N and column M with the leading colon stripped from each capture,
and the filepath is the tiered resolution of the captured group
name.ext; when name.ext exists absolutely or under the working
directory, that filepath is set and ends in name.ext (otherwise it is
the library search result or stays unset). -/
theorem plain_fragment_line_column (fs : FileSystem) (cwd : List Char)
    (ctx : GitDiffContext) (name ext N M : List Char)
    (hn : name ≠ []) (hnc : ∀ c ∈ name, isPathChar c = true)
    (he : ext ≠ []) (hec : ∀ c ∈ ext, isAlnumCh c = true)
    (hN : N ≠ []) (hNc : ∀ c ∈ N, isDigitCh c = true)
    (hM : M ≠ []) (hMc : ∀ c ∈ M, isDigitCh c = true)
    (ha : (name ++ '.' :: (ext ++ ':' :: (N ++ ':' :: M))).take 2 ≠ ['a', '/'])
    (hb : (name ++ '.' :: (ext ++ ':' :: (N ++ ':' :: M))).take 2 ≠ ['b', '/']) :
    (get_filepath fs DEFCFG cwd ctx
        (name ++ '.' :: (ext ++ ':' :: (N ++ ':' :: M)))).2.2.1 = N ∧
    (get_filepath fs DEFCFG cwd ctx
        (name ++ '.' :: (ext ++ ':' :: (N ++ ':' :: M)))).2.2.2 = M ∧
    (get_filepath fs DEFCFG cwd ctx
        (name ++ '.' :: (ext ++ ':' :: (N ++ ':' :: M)))).2.1 =
      resolve_file_group fs cwd (name ++ '.' :: ext) ∧
    ((pyIsAbs (name ++ '.' :: ext) && fs.pathExists (name ++ '.' :: ext)) = true ∨
      fs.pathExists (pjoin cwd (name ++ '.' :: ext)) = true →
      ∃ p pre,
        (get_filepath fs DEFCFG cwd ctx
          (name ++ '.' :: (ext ++ ':' :: (N ++ ':' :: M)))).2.1 = some p ∧
        p = pre ++ (name ++ '.' :: ext)) := by
  have hab : noAB (name ++ '.' :: (ext ++ ':' :: (N ++ ':' :: M))) 0 = true :=
    noAB_of_take ha hb
  have hm := default_match_structured name ext N M hn hnc he hec hN hNc hM hMc hab
  have hNe : N.isEmpty = false := by cases N with
    | nil => exact absurd rfl hN
    | cons a t => rfl
  have hMe : M.isEmpty = false := by cases M with
    | nil => exact absurd rfl hM
    | cons a t => rfl
  have hstrip : ([':'] : List Char).isPrefixOf (name ++ '.' :: ext) = false :=
    colon_isPrefixOf_eq_false hn hnc
  have hmain : (get_filepath fs DEFCFG cwd ctx
      (name ++ '.' :: (ext ++ ':' :: (N ++ ':' :: M)))).2 =
      (resolve_file_group fs cwd (name ++ '.' :: ext), N, M) := by
    have hget : get_filepath fs DEFCFG cwd ctx
        (name ++ '.' :: (ext ++ ':' :: (N ++ ':' :: M))) =
        (ctx, plain_match_path fs cwd DEFCFG
          (name ++ '.' :: (ext ++ ':' :: (N ++ ':' :: M)))) := rfl
    have hmp : reMatchAt DEFCFG.matchPat
        (name ++ '.' :: (ext ++ ':' :: (N ++ ':' :: M))) 0 =
        some (name.length + 1 + ext.length + 1 + N.length + 1 + M.length,
          [(3, ':' :: M), (2, ':' :: N), (1, name ++ '.' :: ext)]) := hm
    rw [hget]
    show plain_match_path fs cwd DEFCFG _ = _
    rw [plain_match_path, hmp]
    have hidx : reGroupIdxs DEFCFG.matchPat = [1, 2, 3] := rfl
    rw [hidx]
    simp only [List.map_cons, List.map_nil, List.lookup]
    norm_num
    exact fold_groups_flc fs cwd (name ++ '.' :: ext) N M hstrip hNe hMe
  refine ⟨by rw [hmain], by rw [hmain], by rw [hmain], fun htier => ?_⟩
  have h31 : (get_filepath fs DEFCFG cwd ctx
      (name ++ '.' :: (ext ++ ':' :: (N ++ ':' :: M)))).2.1 =
      resolve_file_group fs cwd (name ++ '.' :: ext) := by rw [hmain]
  rw [h31]
  exact resolve_tier_ends htier

/-- Witness for C3 at foo.txt:12:3 on a filesystem where /w/foo.txt
exists. -/
theorem plain_fragment_line_column_witness :
    (get_filepath fsFooExists DEFCFG ("/w".toList) ctx0
        ("foo".toList ++ '.' :: ("txt".toList ++ ':' ::
          ("12".toList ++ ':' :: "3".toList)))).2.2.1 = "12".toList ∧
    ∃ p pre,
      (get_filepath fsFooExists DEFCFG ("/w".toList) ctx0
        ("foo".toList ++ '.' :: ("txt".toList ++ ':' ::
          ("12".toList ++ ':' :: "3".toList)))).2.1 = some p ∧
      p = pre ++ ("foo".toList ++ '.' :: "txt".toList) :=
  ⟨(plain_fragment_line_column fsFooExists ("/w".toList) ctx0
      ("foo".toList) ("txt".toList) ("12".toList) ("3".toList)
      (by decide) (by decide) (by decide) (by decide) (by decide) (by decide)
      (by decide) (by decide) (by decide) (by decide)).1,
   (plain_fragment_line_column fsFooExists ("/w".toList) ctx0
      ("foo".toList) ("txt".toList) ("12".toList) ("3".toList)
      (by decide) (by decide) (by decide) (by decide) (by decide) (by decide)
      (by decide) (by decide) (by decide) (by decide)).2.2.2 (Or.inr (by decide))⟩

end EditorPlugin
